import Mathlib

/-!
Shallow embedding of the core of PAIR-code/auto-histograms
(files `cluster.py`, `embeddings_manager.py`, `app/server_api.py`),
together with theorems settling the frozen claims about it.

Numeric values that the Python code handles as floats (cosine distances,
confidence parameters) are modelled as rationals `ℚ`; rationals that must
evaluate inside the kernel are written with `mkRat`.
Python `dict` values (which preserve insertion order) are modelled as
association lists `List (String × _)`; Python `list(set(xs))` (an
arbitrary-order deduplication) is modelled as `List.dedup`.
External libraries (scipy's `linkage`/`fcluster`) are abstracted as an
explicit cut function parameter `fc`, as the spec directs for the
clustering primitive.
-/

/-- ASCII lower-casing of a character (used only to state case-insensitive
comparison of labels, as the spec's sentinel rule describes it). -/
def lowerChar (c : Char) : Char :=
  if 'A' ≤ c ∧ c ≤ 'Z' then Char.ofNat (c.toNat + 32) else c

/-- ASCII lower-casing of a string. -/
def lowerAscii (s : String) : String :=
  ⟨s.data.map lowerChar⟩

/-! ## cluster.py -/

/-- Source constant `SIMILARITY_THRESHOLD = 0.05` (cluster.py line 29). -/
def SIMILARITY_THRESHOLD : ℚ := mkRat 5 100

/-- One insertion step of a stable descending sort by entity count.
An element is placed before the first element with a strictly smaller
count, so elements with equal counts keep their original order — the
behaviour of Python's stable `sorted(..., reverse=True)`. -/
def insertByCountDesc (entity_counts : String → ℕ) (x : String) :
    List String → List String
  | [] => [x]
  | y :: ys =>
    if entity_counts y ≤ entity_counts x then x :: y :: ys
    else y :: insertByCountDesc entity_counts x ys

/-- Model of `_sort_cluster_by_counts(cluster, entity_counts)` (cluster.py lines 85-87):
`sorted(cluster, key=lambda entity: entity_counts[entity], reverse=True)`,
a stable sort with the largest counts first. -/
def sort_cluster_by_counts (cluster : List String) (entity_counts : String → ℕ) :
    List String :=
  cluster.foldr (insertByCountDesc entity_counts) []

/-- The dict update in `_label_and_combine_clusters` (cluster.py lines 103-105):
`if description not in histograms: histograms[description] = []` followed by
`histograms[description] += list(cluster)`. -/
def histAppend (h : List (String × List String)) (d : String) (xs : List String) :
    List (String × List String) :=
  if d ∈ h.map Prod.fst then
    h.map fun p => if p.1 = d then (p.1, p.2 ++ xs) else p
  else h ++ [(d, xs)]

/-- The body of the main loop of `_label_and_combine_clusters`
(cluster.py lines 95-105), processing one cluster:
skip empty clusters, sort by counts, join the top 15 with `', '`,
ask the language model for a label, skip the cluster when the label is
`'none'`, empty, or `'None'`, and otherwise append the cluster's members
to the bucket of that label. -/
def labelStep (entity_counts : String → ℕ) (get_label : String → String)
    (h : List (String × List String)) (cluster : List String) :
    List (String × List String) :=
  if cluster = [] then h
  else
    let sorted_cluster := sort_cluster_by_counts cluster entity_counts
    let cluster_str := String.intercalate ", " (sorted_cluster.take 15)
    let description := get_label cluster_str
    if description = "none" ∨ description = "" ∨ description = "None" then h
    else histAppend h description cluster

/-- Model of `_label_and_combine_clusters(all_clusters, entity_counts, llm)`
(cluster.py lines 90-111).  `llm.get_label` is the external language model,
passed as the function `get_label`.  After the main loop each bucket is
deduplicated (`list(set(cluster))`) and re-sorted by counts. -/
def label_and_combine_clusters (all_clusters : List (List String))
    (entity_counts : String → ℕ) (get_label : String → String) :
    List (String × List String) :=
  let histograms := all_clusters.foldl (labelStep entity_counts get_label) []
  histograms.map fun p => (p.1, sort_cluster_by_counts p.2.dedup entity_counts)

/-- The list of cut counts iterated by `_get_clusters` (cluster.py line 60):
`for k in tqdm.tqdm(range(len(entities)))`. -/
def cutCounts (n : ℕ) : List ℕ := List.range n

/-- Model of `entities[cluster_labels == i]` (cluster.py line 63): the subsequence of
`entities` at the positions whose flat-cluster label at cut `k` is `i`.
`fc k idx` stands for `hierarchy.fcluster(linkage_tree, k,
criterion='maxclust')[idx]`, the external scipy clustering primitive
abstracted as a function, as the spec directs. -/
def clusterAt (fc : ℕ → ℕ → ℕ) (entities : List String) (k i : ℕ) : List String :=
  (entities.enum.filter fun p => fc k p.1 = i).map Prod.snd

/-- Model of `max(cluster_labels)` (cluster.py line 62) over the `len(entities)`
labels produced at cut `k` (labels are naturals, so folding `max` from 0
is their maximum). -/
def maxClusterLabel (fc : ℕ → ℕ → ℕ) (entities : List String) (k : ℕ) : ℕ :=
  ((List.range entities.length).map (fc k)).foldr max 0

/-- Lines 66-69 of cluster.py: `key = ''.join(cluster)`;
`if key in all_clusters_dict: continue`; `all_clusters_dict[key] = cluster`. -/
def addCluster (d : List (String × List String)) (cluster : List String) :
    List (String × List String) :=
  if String.join cluster ∈ d.map Prod.fst then d
  else d ++ [(String.join cluster, cluster)]

/-- The body of the inner loop of `_get_clusters` (cluster.py lines 62-69),
processing flat-cluster label `i` of cut `k`: skip clusters with fewer than
3 or more than 15 members, otherwise record the cluster under its joined key
if the key is new. -/
def collectCluster (fc : ℕ → ℕ → ℕ) (entities : List String) (k : ℕ)
    (d : List (String × List String)) (i : ℕ) : List (String × List String) :=
  let cluster := clusterAt fc entities k i
  if cluster.length < 3 ∨ 15 < cluster.length then d
  else addCluster d cluster

/-- One iteration of the outer loop of `_get_clusters` (cluster.py
lines 60-69): cut the tree with cut count `k` and scan labels
`i in range(max(cluster_labels) + 1)`. -/
def collectCut (fc : ℕ → ℕ → ℕ) (entities : List String)
    (d : List (String × List String)) (k : ℕ) : List (String × List String) :=
  (List.range (maxClusterLabel fc entities k + 1)).foldl
    (collectCluster fc entities k) d

/-- The insertion-ordered dict `all_clusters_dict` built by `_get_clusters`
(cluster.py lines 58-69). -/
def getClustersDict (fc : ℕ → ℕ → ℕ) (entities : List String) :
    List (String × List String) :=
  (cutCounts entities.length).foldl (collectCut fc entities) []

/-- Model of `_get_clusters(emb_distances, entities)` (cluster.py lines 52-71); returns
`[list(c) for c in all_clusters_dict.values()]`.  The scipy pair
`linkage`/`fcluster` over `emb_distances` is abstracted as `fc`. -/
def get_clusters (fc : ℕ → ℕ → ℕ) (entities : List String) : List (List String) :=
  (getClustersDict fc entities).map Prod.snd

/-- The body of the inner loop of `_combine_clusters_using_centroids`
(cluster.py lines 132-138), processing candidate `j` against current
cluster `i`: skip when `i >= j` or `j` was already combined; when the
centroid distance `cluster_sims[i, j]` is below `SIMILARITY_THRESHOLD`,
extend the growing cluster with `j`'s members and mark `j` combined.
The state is (deduped_cluster, combined_indices). -/
def innerStep (dist : ℕ → ℕ → ℚ) (all_clusters : List (List String)) (i : ℕ)
    (s : List String × List ℕ) (j : ℕ) : List String × List ℕ :=
  if i ≥ j ∨ j ∈ s.2 then s
  else if dist i j < SIMILARITY_THRESHOLD then
    (s.1 ++ all_clusters.getD j [], s.2 ++ [j])
  else s

/-- One iteration of the outer loop of `_combine_clusters_using_centroids`
(cluster.py lines 128-140): skip clusters already combined, otherwise run
the inner loop starting from cluster `i`'s own members and append the
deduplicated result (`list(set(deduped_cluster))`).  The state is
(deduped_clusters, combined_indices). -/
def outerStep (dist : ℕ → ℕ → ℚ) (all_clusters : List (List String))
    (s : List (List String) × List ℕ) (i : ℕ) : List (List String) × List ℕ :=
  if i ∈ s.2 then s
  else
    let t := (List.range all_clusters.length).foldl
      (innerStep dist all_clusters i) (all_clusters.getD i [], s.2)
    (s.1 ++ [t.1.dedup], t.2)

/-- Model of `_combine_clusters_using_centroids(all_clusters, entity_embs, entities)`
(cluster.py lines 114-141).  `dist i j` stands for `cluster_sims[i, j]`, the
pairwise cosine-distance matrix of the cluster centroids that lines 116-125
compute with `get_embedding_matrix(cluster_centroids)` (a floating-point
computation involving square-root normalization, taken here as an input). -/
def combine_clusters_using_centroids (dist : ℕ → ℕ → ℚ)
    (all_clusters : List (List String)) : List (List String) :=
  ((List.range all_clusters.length).foldl (outerStep dist all_clusters) ([], [])).1

/-! ## app/server_api.py -/

/-- Model of `np.max` over a non-empty list of distances (junk value 0 on the empty
list, on which `np.max` raises). -/
def npMax : List ℚ → ℚ
  | [] => 0
  | x :: xs => xs.foldl max x

/-- The inclusion-radius computation of `get_examples_of_label`
(server_api.py lines 110-112): `eps = 1 - entity_label_confidence`;
`radius = np.max(dists_to_center) * (1 + eps)`. -/
def inclusionRadius (dists_to_center : List ℚ) (entity_label_confidence : ℚ) : ℚ :=
  let eps := 1 - entity_label_confidence
  npMax dists_to_center * (1 + eps)

/-! ## embeddings_manager.py -/

/-- Source constant `_MAX_CACHE_ENTRIES = 50_000` (embeddings_manager.py line 34). -/
def MAX_CACHE_ENTRIES : ℕ := 50000

/-- Model of `LRUCache` (embeddings_manager.py lines 178-202): an insertion-ordered
dictionary (head = least recently used) with a capacity. -/
structure LRUCache (V : Type) where
  cache : List (String × V)
  capacity : ℕ
deriving DecidableEq

/-- Model of `OrderedDict.move_to_end(key)`: the entry with the given key moves to
the back, everything else keeps its order. -/
def moveToEnd {V : Type} (l : List (String × V)) (k : String) :
    List (String × V) :=
  l.filter (fun p => p.1 ≠ k) ++ l.filter (fun p => p.1 = k)

/-- Python dict assignment `d[key] = value`: update the value in place when
the key is present, append a new entry otherwise. -/
def odAssign {V : Type} (l : List (String × V)) (k : String) (v : V) :
    List (String × V) :=
  if k ∈ l.map Prod.fst then l.map fun p => if p.1 = k then (k, v) else p
  else l ++ [(k, v)]

/-- Model of `LRUCache.put` (embeddings_manager.py lines 197-202): move an existing
key to the most-recently-used end, assign the value, and pop the least
recently used entry (the head) when the size now exceeds the capacity. -/
def LRUCache.put {V : Type} (c : LRUCache V) (k : String) (v : V) : LRUCache V :=
  let cache₁ := if k ∈ c.cache.map Prod.fst then moveToEnd c.cache k else c.cache
  let cache₂ := odAssign cache₁ k v
  if c.capacity < cache₂.length then ⟨cache₂.tail, c.capacity⟩
  else ⟨cache₂, c.capacity⟩

/-- Model of `LRUCache.get` (embeddings_manager.py lines 191-195): `None` on a miss;
on a hit, promote the key to most recently used and return its value
together with the mutated cache. -/
def LRUCache.get {V : Type} (c : LRUCache V) (k : String) :
    Option V × LRUCache V :=
  if k ∈ c.cache.map Prod.fst then
    let moved := moveToEnd c.cache k
    (moved.lookup k, ⟨moved, c.capacity⟩)
  else (none, c)

/-- Model of the constructor replay (embeddings_manager.py lines 181-189,
methods named there after the double-underscore constructor idiom):
start empty and replay every loaded entry through `put`. -/
def LRUCache.replayEntries {V : Type} (capacity : ℕ) (data : List (String × V)) :
    LRUCache V :=
  data.foldl (fun c p => c.put p.1 p.2) ⟨[], capacity⟩

/-- The `Embedder` interface (embeddings_manager.py lines 37-46): a model
name and a deterministic embedding function.  Vectors are abstracted as an
arbitrary type `V` with decidable (element-wise) equality. -/
structure Embedder (V : Type) where
  name : String
  embed : String → V

/-- The persisted blob `{'cache': ..., 'model_name': ...}` written by
`update_embeddings_cache` and read by `_load_or_create_embeddings_cache`. -/
structure SavedData (V : Type) where
  cache : List (String × V)
  model_name : String

/-- Model of the `EmbeddingsManager` state: the model and the embeddings cache. -/
structure EmbeddingsManager (V : Type) where
  model : Embedder V
  embeddings_cache : LRUCache V

/-- Model of `EmbeddingsManager.assert_compatibility` (embeddings_manager.py lines
118-134): the loaded model name must equal the live model's name, and when
the cache is non-empty one cached vector (the first key's) is recomputed
and must match.  `none` models a failed assertion; the returned cache
reflects the `get` promotion performed by the sample check. -/
def assert_compatibility {V : Type} [DecidableEq V] (model : Embedder V)
    (c : LRUCache V) (model_name : String) : Option (LRUCache V) :=
  if model.name ≠ model_name then none
  else
    match c.cache.head? with
    | none => some c
    | some (first_key, _) =>
      match c.get first_key with
      | (none, c') => some c'
      | (some cached, c') =>
        if cached = model.embed first_key then some c' else none

/-- Model of `EmbeddingsManager._load_or_create_embeddings_cache` (embeddings_manager.py
lines 97-116): read the persisted data (or start fresh), replay it into a new
`LRUCache` with capacity `_MAX_CACHE_ENTRIES`, and run the compatibility
assertion. -/
def load_or_create_embeddings_cache {V : Type} [DecidableEq V]
    (model : Embedder V) (saved : Option (SavedData V)) :
    Option (EmbeddingsManager V) :=
  let data := saved.getD ⟨[], model.name⟩
  let c := LRUCache.replayEntries MAX_CACHE_ENTRIES data.cache
  (assert_compatibility model c data.model_name).map fun c' =>
    ⟨model, c'⟩

/-- Model of `EmbeddingsManager.update_embeddings_cache` (embeddings_manager.py lines
136-144): serialize the full current entry list plus the model name. -/
def update_embeddings_cache {V : Type} (m : EmbeddingsManager V) : SavedData V :=
  ⟨m.embeddings_cache.cache, m.model.name⟩

/-! ## Generic helper lemmas -/

/-- A fold preserves any invariant its step preserves. -/
theorem foldl_preserve {α β : Type} (P : α → Prop) (f : α → β → α) :
    ∀ (l : List β) (a : α), P a → (∀ a b, b ∈ l → P a → P (f a b)) →
      P (l.foldl f a) := by
  intro l
  induction l with
  | nil => intro a h _; simpa using h
  | cons b t ih =>
    intro a h hstep
    simp only [List.foldl_cons]
    exact ih (f a b) (hstep a b (by simp) h)
      (fun a' b' hb' => hstep a' b' (by simp [hb']))

/-- If `l = l₁ ++ m`, with `l₁ ≠ []`, then the tail drops from `l₁`. -/
theorem tail_append_of_ne_nil {α : Type} {l₁ : List α} (l₂ : List α)
    (h : l₁ ≠ []) : (l₁ ++ l₂).tail = l₁.tail ++ l₂ := by
  cases l₁ with
  | nil => exact absurd rfl h
  | cons a t => simp

/-! ## C4: exemplar inclusion radius -/

/-- C4 (confirmed).  For a non-empty exemplar-distance list and confidence
`c ∈ (0, 1]`, `get_examples_of_label` computes the inclusion radius
`np.max(dists) * (1 + (1 - c)) = max(d_i) * (2 - c)`; in particular for
`c = 1` the radius equals `max(d_i)`. -/
theorem inclusion_radius_formula (dists : List ℚ) (c : ℚ)
    (hne : dists ≠ []) (hc0 : 0 < c) (hc1 : c ≤ 1) :
    inclusionRadius dists c = npMax dists * (2 - c) ∧
      inclusionRadius dists 1 = npMax dists := by
  constructor
  · show npMax dists * (1 + (1 - c)) = npMax dists * (2 - c)
    ring_nf
  · show npMax dists * (1 + (1 - 1)) = npMax dists
    ring_nf

/-- Witness for C4 at the concrete input `dists = [2]`, `c = 1`. -/
theorem inclusion_radius_formula_witness :
    inclusionRadius [2] 1 = npMax [2] * (2 - 1) ∧
      inclusionRadius [2] 1 = npMax [2] :=
  inclusion_radius_formula [2] 1 (by decide) (by decide) (by decide)

/-! ## LRU cache lemmas -/

/-- Lemma: `move_to_end` permutes the entry list. -/
theorem moveToEnd_perm {V : Type} (l : List (String × V)) (k : String) :
    (moveToEnd l k).Perm l := by
  unfold moveToEnd
  refine List.Perm.trans List.perm_append_comm ?_
  have h := List.filter_append_perm (fun p : String × V => p.1 = k) l
  simpa [decide_not] using h

/-- A present key of a key-distinct entry list splits it around its entry. -/
theorem exists_split_of_mem_keys {V : Type} {l : List (String × V)} {k : String}
    (hk : k ∈ l.map Prod.fst) (hnd : (l.map Prod.fst).Nodup) :
    ∃ l₁ v₀ l₂, l = l₁ ++ (k, v₀) :: l₂ ∧
      (∀ p ∈ l₁, p.1 ≠ k) ∧ ∀ p ∈ l₂, p.1 ≠ k := by
  obtain ⟨p, hp, hpk⟩ := List.mem_map.1 hk
  obtain ⟨l₁, l₂, rfl⟩ := List.append_of_mem hp
  obtain ⟨k', v₀⟩ := p
  cases hpk
  rw [List.map_append, List.map_cons] at hnd
  rw [List.nodup_append] at hnd
  obtain ⟨-, hnd₂, hdisj⟩ := hnd
  refine ⟨l₁, v₀, l₂, rfl, ?_, ?_⟩
  · intro p hpl hpk
    exact hdisj (List.mem_map_of_mem Prod.fst hpl) (by simp [hpk])
  · intro p hpl hpk
    rw [List.nodup_cons] at hnd₂
    exact hnd₂.1 (hpk ▸ List.mem_map_of_mem Prod.fst hpl)

/-- Lemma: `moveToEnd` on a split list: the entry moves to the back. -/
theorem moveToEnd_eq_of_split {V : Type} {l l₁ l₂ : List (String × V)}
    {k : String} {v₀ : V} (hl : l = l₁ ++ (k, v₀) :: l₂)
    (h₁ : ∀ p ∈ l₁, p.1 ≠ k) (h₂ : ∀ p ∈ l₂, p.1 ≠ k) :
    moveToEnd l k = (l₁ ++ l₂) ++ [(k, v₀)] := by
  subst hl
  unfold moveToEnd
  have e₁ : List.filter (fun p => p.1 ≠ k) (l₁ ++ (k, v₀) :: l₂) = l₁ ++ l₂ := by
    rw [List.filter_append, List.filter_cons]
    rw [List.filter_eq_self.2 (by intro p hp; simpa using h₁ p hp),
      List.filter_eq_self.2 (by intro p hp; simpa using h₂ p hp)]
    simp
  have e₂ : List.filter (fun p => p.1 = k) (l₁ ++ (k, v₀) :: l₂) = [(k, v₀)] := by
    rw [List.filter_append, List.filter_cons]
    rw [List.filter_eq_nil_iff.2 (by intro p hp; simpa using h₁ p hp),
      List.filter_eq_nil_iff.2 (by intro p hp; simpa using h₂ p hp)]
    simp
  rw [e₁, e₂]

/-- Lemma: `lookup` skips a prefix whose keys all differ from the key sought. -/
theorem lookup_append_skip {V : Type} (l₁ l₂ : List (String × V)) (k : String)
    (h : ∀ p ∈ l₁, p.1 ≠ k) : (l₁ ++ l₂).lookup k = l₂.lookup k := by
  induction l₁ with
  | nil => simp
  | cons a t ih =>
    obtain ⟨a1, a2⟩ := a
    have ha : (k == a1) = false := by
      rw [beq_eq_false_iff_ne]
      exact fun he => h (a1, a2) (by simp) (by simp [he])
    simp only [List.cons_append, List.lookup, ha]
    exact ih fun p hp => h p (by simp [hp])

/-- Entries whose key differs from `k` are untouched by the assignment map. -/
theorem map_assign_of_ne {V : Type} (k : String) (v : V)
    (l : List (String × V)) (hl : ∀ p ∈ l, p.1 ≠ k) :
    List.map (fun p => if p.1 = k then (k, v) else p) l = l := by
  have h : List.map (fun p => if p.1 = k then (k, v) else p) l = List.map id l :=
    List.map_congr_left fun p hp => by simp [hl p hp]
  simpa using h

/-- Lemma: `put` of a key that is present, under distinct keys: the other entries
keep their order, the entry moves to the back with the new value, and
nothing is evicted when the size is within capacity. -/
theorem put_eq_of_mem {V : Type} (c : LRUCache V) (k : String) (v : V)
    (hnd : (c.cache.map Prod.fst).Nodup) (hk : k ∈ c.cache.map Prod.fst)
    (hlen : c.cache.length ≤ c.capacity) :
    ∃ l₁ v₀ l₂, c.cache = l₁ ++ (k, v₀) :: l₂ ∧
      c.put k v = ⟨(l₁ ++ l₂) ++ [(k, v)], c.capacity⟩ := by
  obtain ⟨l₁, v₀, l₂, hl, h₁, h₂⟩ := exists_split_of_mem_keys hk hnd
  have hmove := moveToEnd_eq_of_split hl h₁ h₂
  have hkmove : k ∈ (moveToEnd c.cache k).map Prod.fst := by
    rw [hmove]; simp
  have hassign : odAssign (moveToEnd c.cache k) k v = (l₁ ++ l₂) ++ [(k, v)] := by
    rw [odAssign, if_pos hkmove, hmove]
    rw [List.map_append, List.map_append, map_assign_of_ne k v l₁ h₁,
      map_assign_of_ne k v l₂ h₂]
    simp
  have hlen₂ : ((l₁ ++ l₂) ++ [(k, v)]).length = c.cache.length := by
    rw [hl]
    simp only [List.length_append, List.length_cons, List.length_nil]
    omega
  refine ⟨l₁, v₀, l₂, hl, ?_⟩
  simp only [LRUCache.put]
  rw [if_pos hk, hassign, if_neg (by rw [hlen₂]; omega)]

/-- C6 (confirmed).  A `put` never grows the cache beyond its capacity, and
a `put` of a fresh key into a full (non-zero-capacity) cache evicts exactly
one entry, namely the least recently used one: the head is dropped and
everything else survives in order, with the new entry at the back. -/
theorem put_capacity_bound {V : Type} (c : LRUCache V) (k : String) (v : V)
    (hlen : c.cache.length ≤ c.capacity) :
    (c.put k v).cache.length ≤ c.capacity ∧
      (k ∉ c.cache.map Prod.fst → c.cache.length = c.capacity →
        0 < c.capacity → (c.put k v).cache = c.cache.tail ++ [(k, v)]) := by
  constructor
  · by_cases hk : k ∈ c.cache.map Prod.fst
    · have hperm : (moveToEnd c.cache k).Perm c.cache := moveToEnd_perm _ _
      have hkmove : k ∈ (moveToEnd c.cache k).map Prod.fst :=
        (hperm.map Prod.fst).mem_iff.2 hk
      have hlen₂ : (odAssign (moveToEnd c.cache k) k v).length =
          c.cache.length := by
        rw [odAssign, if_pos hkmove, List.length_map, hperm.length_eq]
      simp only [LRUCache.put]
      rw [if_pos hk]
      split
      · dsimp only
        rw [List.length_tail, hlen₂]
        omega
      · dsimp only
        rw [hlen₂]
        exact hlen
    · have hassign : odAssign c.cache k v = c.cache ++ [(k, v)] := by
        rw [odAssign, if_neg hk]
      simp only [LRUCache.put]
      rw [if_neg hk, hassign]
      split
      · dsimp only
        rw [List.length_tail]
        simp only [List.length_append, List.length_cons, List.length_nil]
        omega
      · rename_i hcap
        dsimp only
        simp only [List.length_append, List.length_cons, List.length_nil] at hcap ⊢
        omega
  · intro hk hfull hcap
    have hassign : odAssign c.cache k v = c.cache ++ [(k, v)] := by
      rw [odAssign, if_neg hk]
    have hpos : c.capacity < (c.cache ++ [(k, v)]).length := by
      simp only [List.length_append, List.length_cons, List.length_nil]
      omega
    simp only [LRUCache.put]
    rw [if_neg hk, hassign, if_pos hpos]
    exact tail_append_of_ne_nil [(k, v)] fun h => by
      rw [h] at hfull
      simp only [List.length_nil] at hfull
      omega

/-- Witness for C6: putting the fresh key `"c"` into the full cache
`[a ↦ 1, b ↦ 2]` of capacity 2 stays within capacity and evicts exactly
the least recently used entry `("a", 1)`. -/
theorem put_capacity_bound_witness :
    ((LRUCache.mk [("a", 1), ("b", 2)] 2).put "c" 3).cache.length ≤ 2 ∧
      ((LRUCache.mk [("a", 1), ("b", 2)] 2).put "c" 3).cache =
        [("b", 2), ("c", 3)] :=
  ⟨(put_capacity_bound ⟨[("a", 1), ("b", 2)], 2⟩ "c" 3 (by decide)).1,
    (put_capacity_bound ⟨[("a", 1), ("b", 2)], 2⟩ "c" 3 (by decide)).2
      (by decide) (by decide) (by decide)⟩

/-- C10 (confirmed).  A `put` of a key already present (distinct keys, size
within capacity — including exactly at capacity) keeps the size and the key
set unchanged, evicts nothing, and promotes the entry — with the new
value — to the most-recently-used end. -/
theorem put_existing_key_frame {V : Type} (c : LRUCache V) (k : String) (v : V)
    (hnd : (c.cache.map Prod.fst).Nodup) (hk : k ∈ c.cache.map Prod.fst)
    (hlen : c.cache.length ≤ c.capacity) :
    (c.put k v).cache.length = c.cache.length ∧
      (∀ k', k' ∈ (c.put k v).cache.map Prod.fst ↔
        k' ∈ c.cache.map Prod.fst) ∧
      ∃ t, (c.put k v).cache = t ++ [(k, v)] := by
  obtain ⟨l₁, v₀, l₂, hl, hput⟩ := put_eq_of_mem c k v hnd hk hlen
  rw [hput]
  refine ⟨?_, ?_, ⟨l₁ ++ l₂, rfl⟩⟩
  · rw [hl]
    simp only [List.length_append, List.length_cons, List.length_nil]
    omega
  · intro k'
    rw [hl]
    simp only [List.map_append, List.map_cons, List.map_nil, List.mem_append,
      List.mem_cons, List.mem_singleton, List.not_mem_nil]
    tauto

/-- Witness for C10: updating key `"a"` in a cache exactly at capacity. -/
theorem put_existing_key_frame_witness :
    ((LRUCache.mk [("a", 1), ("b", 2)] 2).put "a" 9).cache.length = 2 ∧
      ("b" ∈ (((LRUCache.mk [("a", 1), ("b", 2)] 2).put "a" 9).cache.map
          Prod.fst) ↔
        "b" ∈ ([("a", 1), ("b", 2)] : List (String × ℕ)).map Prod.fst) ∧
      ∃ t, ((LRUCache.mk [("a", 1), ("b", 2)] 2).put "a" 9).cache =
        t ++ [("a", 9)] :=
  ⟨(put_existing_key_frame ⟨[("a", 1), ("b", 2)], 2⟩ "a" 9 (by decide)
      (by decide) (by decide)).1,
    (put_existing_key_frame ⟨[("a", 1), ("b", 2)], 2⟩ "a" 9 (by decide)
      (by decide) (by decide)).2.1 "b",
    (put_existing_key_frame ⟨[("a", 1), ("b", 2)], 2⟩ "a" 9 (by decide)
      (by decide) (by decide)).2.2⟩

/-- Replaying a key-distinct entry list that fits within the capacity
through `put` reproduces it exactly. -/
theorem replay_entries_exact {V : Type} (cap : ℕ) :
    ∀ (l acc : List (String × V)),
      ((acc ++ l).map Prod.fst).Nodup → (acc ++ l).length ≤ cap →
      l.foldl (fun (c : LRUCache V) p => c.put p.1 p.2)
          (⟨acc, cap⟩ : LRUCache V) = ⟨acc ++ l, cap⟩ := by
  intro l
  induction l with
  | nil => intro acc _ _; simp
  | cons q t ih =>
    intro acc hnd hlen
    obtain ⟨k, v⟩ := q
    have hk : k ∉ acc.map Prod.fst := by
      rw [List.map_append, List.nodup_append] at hnd
      intro hmem
      exact hnd.2.2 hmem (by simp)
    have hstep : (LRUCache.mk acc cap).put k v = ⟨acc ++ [(k, v)], cap⟩ := by
      simp only [LRUCache.put]
      rw [if_neg hk, odAssign, if_neg hk]
      rw [if_neg (by
        simp only [List.length_append, List.length_cons, List.length_nil] at *
        omega)]
    simp only [List.foldl_cons, hstep]
    have hre : (acc ++ [(k, v)]) ++ t = acc ++ (k, v) :: t := by simp
    have := ih (acc ++ [(k, v)]) (by rw [hre]; exact hnd) (by rw [hre]; exact hlen)
    rw [this, hre]

/-- Evaluation of `assert_compatibility` on a non-empty cache whose keys are
distinct and whose first entry matches the model: the name check and the
sample check pass, and the sample `get` promotes the first key. -/
theorem assert_compatibility_cons {V : Type} [DecidableEq V] (model : Embedder V)
    (k₀ : String) (v₀ : V) (t : List (String × V)) (cap : ℕ)
    (ht : ∀ p ∈ t, p.1 ≠ k₀) (hv : v₀ = model.embed k₀) :
    assert_compatibility model ⟨(k₀, v₀) :: t, cap⟩ model.name =
      some ⟨moveToEnd ((k₀, v₀) :: t) k₀, cap⟩ := by
  have hmove : moveToEnd ((k₀, v₀) :: t) k₀ =
      (([] : List (String × V)) ++ t) ++ [(k₀, v₀)] :=
    moveToEnd_eq_of_split (by simp) (by simp) ht
  have hget : (LRUCache.mk ((k₀, v₀) :: t) cap).get k₀ =
      (some v₀, ⟨moveToEnd ((k₀, v₀) :: t) k₀, cap⟩) := by
    rw [LRUCache.get, if_pos (by simp)]
    dsimp only
    rw [hmove, List.nil_append, lookup_append_skip t [(k₀, v₀)] k₀ ht]
    simp [List.lookup]
  rw [assert_compatibility, if_neg (fun h => h rfl)]
  have hhd : (LRUCache.mk ((k₀, v₀) :: t) cap).cache.head? = some (k₀, v₀) := rfl
  rw [hhd]
  dsimp only
  rw [hget]
  dsimp only
  rw [if_pos hv]

/-- C5 (confirmed).  Flushing a cache whose (distinct-keyed) entry list fits
within the capacity and whose sampled first entry agrees with the same
deterministic model, then constructing a new manager from the flushed data,
succeeds and reproduces the same entry set (as a permutation — the sample
check promotes the probed key) and the same model identity. -/
theorem cache_round_trip {V : Type} [DecidableEq V] (m : EmbeddingsManager V)
    (hnd : (m.embeddings_cache.cache.map Prod.fst).Nodup)
    (hlen : m.embeddings_cache.cache.length ≤ MAX_CACHE_ENTRIES)
    (hhead : ∀ p ∈ m.embeddings_cache.cache.head?, p.2 = m.model.embed p.1) :
    ∃ mm, load_or_create_embeddings_cache m.model
        (some (update_embeddings_cache m)) = some mm ∧
      mm.embeddings_cache.cache.Perm m.embeddings_cache.cache ∧
      mm.model.name = m.model.name := by
  have hinit : LRUCache.replayEntries MAX_CACHE_ENTRIES m.embeddings_cache.cache =
      ⟨m.embeddings_cache.cache, MAX_CACHE_ENTRIES⟩ := by
    have h := replay_entries_exact MAX_CACHE_ENTRIES m.embeddings_cache.cache []
      (by simpa using hnd) (by simpa using hlen)
    simpa [LRUCache.replayEntries] using h
  cases hL : m.embeddings_cache.cache with
  | nil =>
    rw [hL] at hinit
    refine ⟨⟨m.model, ⟨[], MAX_CACHE_ENTRIES⟩⟩, ?_, List.Perm.refl _, rfl⟩
    simp only [load_or_create_embeddings_cache, update_embeddings_cache,
      Option.getD_some]
    rw [hL, hinit]
    rw [assert_compatibility, if_neg (fun h => h rfl)]
    rfl
  | cons q t =>
    obtain ⟨k₀, v₀⟩ := q
    rw [hL] at hinit hnd hhead
    have ht : ∀ p ∈ t, p.1 ≠ k₀ := by
      rw [List.map_cons, List.nodup_cons] at hnd
      intro p hp hpk
      exact hnd.1 (by simpa [hpk] using List.mem_map_of_mem Prod.fst hp)
    have hv : v₀ = m.model.embed k₀ := hhead (k₀, v₀) (by simp)
    refine ⟨⟨m.model, ⟨moveToEnd ((k₀, v₀) :: t) k₀, MAX_CACHE_ENTRIES⟩⟩, ?_,
      moveToEnd_perm _ _, rfl⟩
    simp only [load_or_create_embeddings_cache, update_embeddings_cache,
      Option.getD_some]
    rw [hL, hinit, assert_compatibility_cons m.model k₀ v₀ t MAX_CACHE_ENTRIES ht hv]
    rfl

/-- Witness for C5 at a concrete two-entry cache over `V = ℕ` with the
deterministic model `embed _ = 7`. -/
theorem cache_round_trip_witness :
    ∃ mm, load_or_create_embeddings_cache (Embedder.mk "m" fun _ => (7 : ℕ))
        (some (update_embeddings_cache
          ⟨⟨"m", fun _ => 7⟩, ⟨[("a", 7), ("b", 7)], 50000⟩⟩)) = some mm ∧
      mm.embeddings_cache.cache.Perm [("a", 7), ("b", 7)] ∧
      mm.model.name = "m" :=
  cache_round_trip ⟨⟨"m", fun _ => 7⟩, ⟨[("a", 7), ("b", 7)], 50000⟩⟩
    (by decide) (by decide) (by decide)

/-! ## Labeling lemmas (C1, C9) -/

/-- Inserting into the stable descending sort permutes. -/
theorem insertByCountDesc_perm (counts : String → ℕ) (x : String) :
    ∀ l : List String, (insertByCountDesc counts x l).Perm (x :: l) := by
  intro l
  induction l with
  | nil => exact List.Perm.refl _
  | cons y ys ih =>
    rw [insertByCountDesc]
    split
    · exact List.Perm.refl _
    · exact (ih.cons y).trans (List.Perm.swap x y ys)

/-- Lemma: `_sort_cluster_by_counts` permutes its input. -/
theorem sort_cluster_by_counts_perm (cluster : List String)
    (counts : String → ℕ) :
    (sort_cluster_by_counts cluster counts).Perm cluster := by
  induction cluster with
  | nil => exact List.Perm.refl _
  | cons x xs ih =>
    have h : sort_cluster_by_counts (x :: xs) counts =
        insertByCountDesc counts x (sort_cluster_by_counts xs counts) := rfl
    rw [h]
    exact (insertByCountDesc_perm counts x _).trans (ih.cons x)

/-- Lemma: `histAppend` leaves the key list unchanged on a present key and appends
the new key otherwise. -/
theorem histAppend_keys (h : List (String × List String)) (d : String)
    (xs : List String) :
    (histAppend h d xs).map Prod.fst =
      if d ∈ h.map Prod.fst then h.map Prod.fst
      else h.map Prod.fst ++ [d] := by
  rw [histAppend]
  split
  · rw [List.map_map]
    exact List.map_congr_left fun p _ => by
      by_cases hp : p.1 = d <;> simp [hp]
  · simp

/-- Every key of `histAppend h d xs` is a key of `h` or is `d`. -/
theorem histAppend_keys_sub (h : List (String × List String)) (d : String)
    (xs : List String) {d' : String}
    (hd' : d' ∈ (histAppend h d xs).map Prod.fst) :
    d' ∈ h.map Prod.fst ∨ d' = d := by
  rw [histAppend_keys] at hd'
  by_cases hc : d ∈ h.map Prod.fst
  · rw [if_pos hc] at hd'; exact Or.inl hd'
  · rw [if_neg hc] at hd'
    rcases List.mem_append.1 hd' with hcase | hcase
    · exact Or.inl hcase
    · exact Or.inr (by simpa using hcase)

/-- The final per-bucket pass keeps the key list of the histogram dict. -/
theorem label_final_keys (h : List (String × List String))
    (counts : String → ℕ) :
    (h.map fun p => (p.1, sort_cluster_by_counts p.2.dedup counts)).map
        Prod.fst = h.map Prod.fst := by
  rw [List.map_map]
  exact List.map_congr_left fun p _ => rfl

/-- C1 (corrected).  A label key present in the histogram returned by
`_label_and_combine_clusters` is never the empty string, `'none'`, or
`'None'` — these exact sentinels (and only these; comparison is
case-sensitive) cause a cluster to be discarded and never name a bucket. -/
theorem histogram_keys_not_sentinel (all_clusters : List (List String))
    (entity_counts : String → ℕ) (get_label : String → String) :
    ∀ d ∈ (label_and_combine_clusters all_clusters entity_counts
        get_label).map Prod.fst,
      d ≠ "none" ∧ d ≠ "" ∧ d ≠ "None" := by
  intro d hd
  rw [label_and_combine_clusters] at hd
  rw [label_final_keys] at hd
  revert hd
  refine foldl_preserve
    (fun h => d ∈ h.map Prod.fst → d ≠ "none" ∧ d ≠ "" ∧ d ≠ "None")
    (labelStep entity_counts get_label) all_clusters [] (by simp) ?_ 
  intro h cluster _ hP hd
  simp only [labelStep] at hd
  split at hd
  · exact hP hd
  · split at hd
    · exact hP hd
    · rename_i hbad
      rcases histAppend_keys_sub h _ cluster hd with hcase | hcase
      · exact hP hcase
      · subst hcase
        push_neg at hbad
        exact hbad

/-- Witness for C1's amended theorem: a run whose single cluster is labeled
`"ok"` yields the key `"ok"`, which is none of the three sentinels. -/
theorem histogram_keys_not_sentinel_witness :
    "ok" ≠ "none" ∧ "ok" ≠ "" ∧ "ok" ≠ "None" :=
  histogram_keys_not_sentinel [["a", "b", "c"]] (fun _ => 0) (fun _ => "ok")
    "ok" (by decide)

/-- C1 counterexample.  The label `"NONE"` equals `"none"` case-insensitively
(the claim lists it explicitly as a variant that must be discarded), yet the
code's check `description == 'none' or not description or description ==
'None'` does not catch it: the cluster is kept and contributes the bucket
`("NONE", ["a", "b", "c"])`. -/
theorem label_sentinel_case_sensitive_cex :
    lowerAscii "NONE" = "none" ∧ "NONE" ≠ "" ∧
      ("NONE", ["a", "b", "c"]) ∈
        label_and_combine_clusters [["a", "b", "c"]] (fun _ => 0)
          (fun _ => "NONE") := by decide

/-- C9 (confirmed).  Every bucket of the histogram returned by
`_label_and_combine_clusters` is non-empty (empty clusters are skipped
before labeling) and duplicate-free (each bucket passes through
`list(set(...))` before being emitted). -/
theorem histogram_buckets_nonempty_nodup (all_clusters : List (List String))
    (entity_counts : String → ℕ) (get_label : String → String) :
    ∀ p ∈ label_and_combine_clusters all_clusters entity_counts get_label,
      p.2 ≠ [] ∧ p.2.Nodup := by
  have hfold : ∀ p ∈ all_clusters.foldl (labelStep entity_counts get_label) [],
      p.2 ≠ [] := by
    refine foldl_preserve (fun h => ∀ p ∈ h, p.2 ≠ [])
      (labelStep entity_counts get_label) all_clusters [] (by simp) ?_
    intro h cluster _ hP p hp
    simp only [labelStep] at hp
    split at hp
    · exact hP p hp
    · rename_i hclu
      split at hp
      · exact hP p hp
      · rw [histAppend] at hp
        split at hp
        · rcases List.mem_map.1 hp with ⟨q, hq, hfq⟩
          by_cases hqd : q.1 = get_label (String.intercalate ", "
              ((sort_cluster_by_counts cluster entity_counts).take 15))
          · rw [if_pos hqd] at hfq
            rw [← hfq]
            intro hcon
            exact hP q hq (List.append_eq_nil.1 hcon).1
          · rw [if_neg hqd] at hfq
            rw [← hfq]
            exact hP q hq
        · rcases List.mem_append.1 hp with hcase | hcase
          · exact hP p hcase
          · have : p = (get_label (String.intercalate ", "
                ((sort_cluster_by_counts cluster entity_counts).take 15)),
                cluster) := by simpa using hcase
            rw [this]
            exact hclu
  intro p hp
  rw [label_and_combine_clusters] at hp
  rcases List.mem_map.1 hp with ⟨q, hq, hfq⟩
  have hqne : q.2 ≠ [] := hfold q hq
  have hperm : (sort_cluster_by_counts q.2.dedup entity_counts).Perm q.2.dedup :=
    sort_cluster_by_counts_perm _ _
  rw [← hfq]
  constructor
  · show sort_cluster_by_counts q.2.dedup entity_counts ≠ []
    intro hcon
    obtain ⟨x, hx⟩ := List.exists_mem_of_ne_nil q.2 hqne
    have hxd : x ∈ q.2.dedup := List.mem_dedup.2 hx
    have hx2 : x ∈ sort_cluster_by_counts q.2.dedup entity_counts :=
      hperm.symm.mem_iff.1 hxd
    rw [hcon] at hx2
    exact List.not_mem_nil x hx2
  · show (sort_cluster_by_counts q.2.dedup entity_counts).Nodup
    exact hperm.symm.nodup (List.nodup_dedup q.2)

/-- Witness for C9 at a concrete run producing one bucket. -/
theorem histogram_buckets_nonempty_nodup_witness :
    (("ok", ["a", "b", "c"]) : String × List String).2 ≠ [] ∧
      (("ok", ["a", "b", "c"]) : String × List String).2.Nodup :=
  histogram_buckets_nonempty_nodup [["a", "b", "c"]] (fun _ => 0)
    (fun _ => "ok") ("ok", ["a", "b", "c"]) (by decide)

/-! ## Clustering lemmas (C3, C7, C8) -/

/-- Each flat cluster is an order-preserving subsequence of the entities. -/
theorem clusterAt_sublist (fc : ℕ → ℕ → ℕ) (es : List String) (k i : ℕ) :
    (clusterAt fc es k i).Sublist es := by
  have h : ((es.enum.filter fun p => fc k p.1 = i).map Prod.snd).Sublist
      (es.enum.map Prod.snd) :=
    List.Sublist.map Prod.snd (List.filter_sublist es.enum)
  rw [List.enum_map_snd] at h
  exact h

/-- Invariant of `all_clusters_dict`: every entry's key is the join of its
cluster, the cluster is a subsequence of the entities, and its size lies in
`[3, 15]`. -/
theorem getClustersDict_entries (fc : ℕ → ℕ → ℕ) (es : List String) :
    ∀ p ∈ getClustersDict fc es, p.1 = String.join p.2 ∧ p.2.Sublist es ∧
      3 ≤ p.2.length ∧ p.2.length ≤ 15 := by
  refine foldl_preserve
    (fun d => ∀ p ∈ d, p.1 = String.join p.2 ∧ p.2.Sublist es ∧
      3 ≤ p.2.length ∧ p.2.length ≤ 15)
    (collectCut fc es) (cutCounts es.length) [] (by simp) ?_
  intro d k _ hP
  refine foldl_preserve
    (fun d => ∀ p ∈ d, p.1 = String.join p.2 ∧ p.2.Sublist es ∧
      3 ≤ p.2.length ∧ p.2.length ≤ 15)
    (collectCluster fc es k) _ d hP ?_
  intro d' i _ hP' p hp
  simp only [collectCluster] at hp
  split at hp
  · exact hP' p hp
  · rename_i hsize
    rw [addCluster] at hp
    split at hp
    · exact hP' p hp
    · rcases List.mem_append.1 hp with hc | hc
      · exact hP' p hc
      · have hpe : p = (String.join (clusterAt fc es k i),
            clusterAt fc es k i) := by simpa using hc
        rw [hpe]
        push_neg at hsize
        exact ⟨rfl, clusterAt_sublist fc es k i, hsize.1, hsize.2⟩

/-- Invariant of `all_clusters_dict`: its keys are pairwise distinct (a key
already present is never overwritten). -/
theorem getClustersDict_keys_nodup (fc : ℕ → ℕ → ℕ) (es : List String) :
    (getClustersDict fc es).Pairwise fun p q => p.1 ≠ q.1 := by
  refine foldl_preserve (fun d => d.Pairwise fun p q => p.1 ≠ q.1)
    (collectCut fc es) (cutCounts es.length) [] (by simp) ?_
  intro d k _ hP
  refine foldl_preserve (fun d => d.Pairwise fun p q => p.1 ≠ q.1)
    (collectCluster fc es k) _ d hP ?_
  intro d' i _ hP'
  simp only [collectCluster]
  split
  · exact hP'
  · rw [addCluster]
    split
    · exact hP'
    · rename_i hkey
      rw [List.pairwise_append]
      refine ⟨hP', List.pairwise_singleton _ _, ?_⟩
      intro p hp q hq
      have hq' : q = (String.join (clusterAt fc es k i),
          clusterAt fc es k i) := by simpa using hq
      rw [hq']
      intro hcon
      refine hkey ?_
      have hpj : p.1 = String.join (clusterAt fc es k i) := by simpa using hcon
      exact hpj ▸ List.mem_map_of_mem Prod.fst hp

/-- A key present in the dict stays present through one inner-loop step. -/
theorem keys_mono_collectCluster (fc : ℕ → ℕ → ℕ) (es : List String) (k : ℕ)
    (key : String) (d : List (String × List String)) (i : ℕ)
    (h : key ∈ d.map Prod.fst) :
    key ∈ (collectCluster fc es k d i).map Prod.fst := by
  simp only [collectCluster]
  split
  · exact h
  · rw [addCluster]
    split
    · exact h
    · rw [List.map_append]
      exact List.mem_append_left _ h

/-- A key present in the dict stays present through a whole cut. -/
theorem keys_mono_collectCut (fc : ℕ → ℕ → ℕ) (es : List String)
    (key : String) (d : List (String × List String)) (k : ℕ)
    (h : key ∈ d.map Prod.fst) :
    key ∈ (collectCut fc es d k).map Prod.fst := by
  rw [collectCut]
  refine foldl_preserve (fun d => key ∈ d.map Prod.fst)
    (collectCluster fc es k) _ d h ?_
  intro d' i _ h'
  exact keys_mono_collectCluster fc es k key d' i h'

/-- Processing a size-valid flat cluster leaves its key in the dict. -/
theorem key_after_collectCluster (fc : ℕ → ℕ → ℕ) (es : List String)
    (k i : ℕ) (d : List (String × List String))
    (h3 : 3 ≤ (clusterAt fc es k i).length)
    (h15 : (clusterAt fc es k i).length ≤ 15) :
    String.join (clusterAt fc es k i) ∈
      (collectCluster fc es k d i).map Prod.fst := by
  simp only [collectCluster]
  rw [if_neg (by omega)]
  rw [addCluster]
  split
  · assumption
  · rw [List.map_append]
    exact List.mem_append_right _ (by simp)

/-- Every size-valid flat cluster of every iterated cut contributes its key
to the final dict. -/
theorem key_in_getClustersDict (fc : ℕ → ℕ → ℕ) (es : List String) (k i : ℕ)
    (hk : k ∈ cutCounts es.length) (hi : i ≤ maxClusterLabel fc es k)
    (h3 : 3 ≤ (clusterAt fc es k i).length)
    (h15 : (clusterAt fc es k i).length ≤ 15) :
    String.join (clusterAt fc es k i) ∈
      (getClustersDict fc es).map Prod.fst := by
  obtain ⟨K₁, K₂, hK⟩ := List.append_of_mem hk
  rw [getClustersDict, hK, List.foldl_append, List.foldl_cons]
  have hmid : String.join (clusterAt fc es k i) ∈
      (collectCut fc es (K₁.foldl (collectCut fc es) []) k).map Prod.fst := by
    rw [collectCut]
    obtain ⟨R₁, R₂, hR⟩ :=
      List.append_of_mem (List.mem_range.2 (Nat.lt_succ_of_le hi))
    rw [hR, List.foldl_append, List.foldl_cons]
    refine foldl_preserve
      (fun d => String.join (clusterAt fc es k i) ∈ d.map Prod.fst)
      (collectCluster fc es k) R₂ _
      (key_after_collectCluster fc es k i _ h3 h15) ?_
    intro d' i' _ h'
    exact keys_mono_collectCluster fc es k _ d' i' h'
  refine foldl_preserve
    (fun d => String.join (clusterAt fc es k i) ∈ d.map Prod.fst)
    (collectCut fc es) K₂ _ hmid ?_
  intro d' k' _ h'
  exact keys_mono_collectCut fc es _ d' k' h'

/-- C3 (corrected).  `_get_clusters` iterates the cut counts
`range(len(entities))`, i.e. every `k` with `0 ≤ k ≤ n − 1` (n cuts in
total, each passed to the external maxclust criterion as the bound on the
number of flat clusters), and every size-valid flat cluster of every one of
those n cuts is collected (by its joined key) into the returned list. -/
theorem cut_counts_zero_to_n (fc : ℕ → ℕ → ℕ) (es : List String) :
    (∀ k, k ∈ cutCounts es.length ↔ k < es.length) ∧
    (∀ k ∈ cutCounts es.length, ∀ i ≤ maxClusterLabel fc es k,
      3 ≤ (clusterAt fc es k i).length → (clusterAt fc es k i).length ≤ 15 →
      ∃ c ∈ get_clusters fc es,
        String.join c = String.join (clusterAt fc es k i)) := by
  constructor
  · intro k
    exact List.mem_range
  · intro k hk i hi h3 h15
    have hkey := key_in_getClustersDict fc es k i hk hi h3 h15
    rcases List.mem_map.1 hkey with ⟨p, hp, hfst⟩
    have hinv := getClustersDict_entries fc es p hp
    exact ⟨p.2, List.mem_map_of_mem Prod.snd hp, by rw [← hinv.1, hfst]⟩

/-- C3 counterexample.  For `n = 3` entities the iterated cut counts are
`[0, 1, 2]` — the claimed cut counts `1` to `n` inclusive are wrong: the
code performs a cut with count 0 and never one with count `n`. -/
theorem cut_counts_zero_to_n_cex :
    cutCounts 3 = [0, 1, 2] ∧ 3 ∉ cutCounts 3 ∧ cutCounts 3 ≠ [1, 2, 3] := by
  decide

/-- Witness for C3's amended theorem at a concrete cut function. -/
theorem cut_counts_zero_to_n_witness :
    ((0 : ℕ) ∈ cutCounts (["a", "b", "c"] : List String).length ↔
      0 < (["a", "b", "c"] : List String).length) ∧
    ∃ c ∈ get_clusters (fun _ _ => 0) ["a", "b", "c"],
      String.join c = String.join (clusterAt (fun _ _ => 0) ["a", "b", "c"] 0 0) :=
  ⟨(cut_counts_zero_to_n (fun _ _ => 0) ["a", "b", "c"]).1 0,
    (cut_counts_zero_to_n (fun _ _ => 0) ["a", "b", "c"]).2 0 (by decide) 0
      (by decide) (by decide) (by decide)⟩

/-- C8 (confirmed).  Every candidate cluster returned by `_get_clusters`
has between 3 and 15 members. -/
theorem get_clusters_size_bounds (fc : ℕ → ℕ → ℕ) (es : List String) :
    ∀ c ∈ get_clusters fc es, 3 ≤ c.length ∧ c.length ≤ 15 := by
  intro c hc
  rcases List.mem_map.1 hc with ⟨p, hp, hsnd⟩
  have h := getClustersDict_entries fc es p hp
  rw [← hsnd]
  exact ⟨h.2.2.1, h.2.2.2⟩

/-- Witness for C8 at a concrete cut function collecting one 3-cluster. -/
theorem get_clusters_size_bounds_witness :
    3 ≤ (["a", "b", "c"] : List String).length ∧
      (["a", "b", "c"] : List String).length ≤ 15 :=
  get_clusters_size_bounds (fun _ _ => 0) ["a", "b", "c"] ["a", "b", "c"]
    (by decide)

/-- Two subsequences of a duplicate-free list with the same member set are
equal as lists. -/
theorem sublist_eq_of_mem_iff {α : Type} :
    ∀ {l s₁ s₂ : List α}, l.Nodup → s₁.Sublist l → s₂.Sublist l →
      (∀ x, x ∈ s₁ ↔ x ∈ s₂) → s₁ = s₂ := by
  intro l
  induction l with
  | nil =>
    intro s₁ s₂ _ h₁ h₂ _
    rw [List.sublist_nil.1 h₁, List.sublist_nil.1 h₂]
  | cons a t ih =>
    intro s₁ s₂ hnd h₁ h₂ hmem
    rw [List.nodup_cons] at hnd
    cases h₁ with
    | cons _ h₁ =>
      cases h₂ with
      | cons _ h₂ => exact ih hnd.2 h₁ h₂ hmem
      | cons₂ _ h₂ =>
        exact absurd (h₁.subset ((hmem a).2 (by simp))) hnd.1
    | cons₂ _ h₁ =>
      cases h₂ with
      | cons _ h₂ =>
        exact absurd (h₂.subset ((hmem a).1 (by simp))) hnd.1
      | cons₂ _ h₂ =>
        congr 1
        refine ih hnd.2 h₁ h₂ ?_
        intro x
        constructor
        · intro hx
          rcases List.mem_cons.1 ((hmem x).1 (by simp [hx])) with he | hu
          · exact absurd (h₁.subset (he ▸ hx)) hnd.1
          · exact hu
        · intro hx
          rcases List.mem_cons.1 ((hmem x).2 (by simp [hx])) with he | hu
          · exact absurd (h₂.subset (he ▸ hx)) hnd.1
          · exact hu

/-- C7 (corrected).  Over a duplicate-free entity list, no two pre-merge
candidate clusters returned by `_get_clusters` have identical member
sets: equal member sets of two subsequences of a duplicate-free list force
equal lists, hence equal joined keys, which the dict rules out. -/
theorem get_clusters_member_sets_distinct (fc : ℕ → ℕ → ℕ) (es : List String)
    (hnd : es.Nodup) :
    (get_clusters fc es).Pairwise
      fun c₁ c₂ => ¬ ((∀ x ∈ c₁, x ∈ c₂) ∧ ∀ x ∈ c₂, x ∈ c₁) := by
  rw [get_clusters, List.pairwise_map]
  refine List.Pairwise.imp_of_mem ?_ (getClustersDict_keys_nodup fc es)
  intro p q hp hq hne hcon
  have hip := getClustersDict_entries fc es p hp
  have hiq := getClustersDict_entries fc es q hq
  have heq : p.2 = q.2 :=
    sublist_eq_of_mem_iff hnd hip.2.1 hiq.2.1
      fun x => ⟨fun hx => hcon.1 x hx, fun hx => hcon.2 x hx⟩
  exact hne (by rw [hip.1, hiq.1, heq])

/-- The cut function of the C7 counterexample.  It is consistent with a
hierarchical linkage tree over the four entities that merges positions
0, 1, 2 first and position 3 last (cuts are nested refinements): at cut
counts 0 and 1 everything is one flat cluster (label 1); at cut count 2
positions 0-2 form cluster 1 and position 3 cluster 2; at cut count 3 the
flat clusters are {0, 1}, {2}, {3}, all below the minimum size. -/
def dupCutFn (k i : ℕ) : ℕ :=
  if k ≤ 1 then 1
  else if k = 2 then (if i ≤ 2 then 1 else 2)
  else if i ≤ 1 then 1 else i

/-- C7 counterexample.  On the entity list `["a", "b", "c", "c"]` (the claim
quantifies over every entity list, including ones with duplicate strings)
the returned candidates are `["a", "b", "c", "c"]` and `["a", "b", "c"]` —
distinct joined keys, identical member sets. -/
theorem get_clusters_duplicate_member_sets_cex :
    ¬ ((get_clusters dupCutFn ["a", "b", "c", "c"]).Pairwise
      fun c₁ c₂ => ¬ ((∀ x ∈ c₁, x ∈ c₂) ∧ ∀ x ∈ c₂, x ∈ c₁)) := by
  decide

/-- Witness for C7's amended theorem on a duplicate-free entity list. -/
theorem get_clusters_member_sets_distinct_witness :
    (get_clusters (fun _ _ => 0) ["a", "b", "c"]).Pairwise
      fun c₁ c₂ => ¬ ((∀ x ∈ c₁, x ∈ c₂) ∧ ∀ x ∈ c₂, x ∈ c₁) :=
  get_clusters_member_sets_distinct (fun _ _ => 0) ["a", "b", "c"] (by decide)

/-! ## Centroid-merge lemmas (C2) -/

/-- Indices added to `combined_indices` by the inner loop of the merge pass
are inner candidates `m` with `i < m` and centroid distance below the
threshold. -/
theorem inner_combined_sub (dist : ℕ → ℕ → ℚ) (cs : List (List String))
    (i : ℕ) :
    ∀ (J : List ℕ) (s : List String × List ℕ) (m : ℕ),
      m ∈ (J.foldl (innerStep dist cs i) s).2 →
      m ∈ s.2 ∨ (m ∈ J ∧ i < m ∧ dist i m < SIMILARITY_THRESHOLD) := by
  intro J
  induction J with
  | nil => intro s m h; exact Or.inl h
  | cons j J ih =>
    intro s m h
    rw [List.foldl_cons] at h
    rcases ih _ m h with hmem | ⟨hJ, hlt, hdist⟩
    · rw [innerStep] at hmem
      split at hmem
      · exact Or.inl hmem
      · rename_i hskip
        split at hmem
        · rename_i hd
          rcases List.mem_append.1 hmem with hm | hm
          · exact Or.inl hm
          · have hm' : m = j := by simpa using hm
            subst hm'
            push_neg at hskip
            exact Or.inr ⟨by simp, by omega, hd⟩
        · exact Or.inl hmem
    · exact Or.inr ⟨by simp [hJ], hlt, hdist⟩

/-- The growing cluster of the inner loop only ever gains members. -/
theorem inner_dc_mono (dist : ℕ → ℕ → ℚ) (cs : List (List String)) (i : ℕ) :
    ∀ (J : List ℕ) (s : List String × List ℕ) (x : String), x ∈ s.1 →
      x ∈ (J.foldl (innerStep dist cs i) s).1 := by
  intro J
  induction J with
  | nil => intro s x h; exact h
  | cons j J ih =>
    intro s x h
    rw [List.foldl_cons]
    refine ih _ x ?_
    rw [innerStep]
    split
    · exact h
    · split
      · exact List.mem_append_left _ h
      · exact h

/-- If the candidate `j` (`i < j`, distance below the threshold, not yet
combined) appears in the inner loop's duplicate-free candidate list, then
after the loop the growing cluster holds all of `j`'s members. -/
theorem inner_reaches (dist : ℕ → ℕ → ℚ) (cs : List (List String)) (i j : ℕ)
    (hij : i < j) (hdist : dist i j < SIMILARITY_THRESHOLD) :
    ∀ (J : List ℕ), J.Nodup → j ∈ J →
      ∀ (s : List String × List ℕ), j ∉ s.2 →
      ∀ x ∈ cs.getD j [], x ∈ (J.foldl (innerStep dist cs i) s).1 := by
  intro J
  induction J with
  | nil => intro _ h; exact absurd h (List.not_mem_nil j)
  | cons a J ih =>
    intro hnd hj s hs x hx
    rw [List.foldl_cons]
    rw [List.nodup_cons] at hnd
    by_cases haj : a = j
    · subst haj
      refine inner_dc_mono dist cs i J _ x ?_
      rw [innerStep]
      rw [if_neg (by
        rintro (h | h)
        · omega
        · exact hs h)]
      rw [if_pos hdist]
      exact List.mem_append_right _ hx
    · have hj' : j ∈ J := by
        rcases List.mem_cons.1 hj with h | h
        · exact absurd h.symm haj
        · exact h
      refine ih hnd.2 hj' _ ?_ x hx
      rw [innerStep]
      split
      · exact hs
      · split
        · intro hcon
          rcases List.mem_append.1 hcon with h | h
          · exact hs h
          · have hja : j = a := by simpa using h
            exact haj hja.symm
        · exact hs

/-- Indices consumed by the outer merge pass are consumed by some earlier
cluster `k < m` whose centroid is within the threshold of `m`'s. -/
theorem outer_combined_sub (dist : ℕ → ℕ → ℚ) (cs : List (List String)) :
    ∀ (I : List ℕ) (s : List (List String) × List ℕ) (m : ℕ),
      m ∈ (I.foldl (outerStep dist cs) s).2 →
      m ∈ s.2 ∨ ∃ k ∈ I, k < m ∧ dist k m < SIMILARITY_THRESHOLD := by
  intro I
  induction I with
  | nil => intro s m h; exact Or.inl h
  | cons a I ih =>
    intro s m h
    rw [List.foldl_cons] at h
    rcases ih _ m h with hmem | ⟨k, hk, hlt, hdist⟩
    · simp only [outerStep] at hmem
      split at hmem
      · exact Or.inl hmem
      · rcases inner_combined_sub dist cs a _ _ m hmem with h1 | ⟨_, hlt, hd⟩
        · exact Or.inl h1
        · exact Or.inr ⟨a, by simp, hlt, hd⟩
    · exact Or.inr ⟨k, by simp [hk], hlt, hdist⟩

/-- The output list of the outer merge pass only ever gains clusters. -/
theorem outer_acc_mono (dist : ℕ → ℕ → ℚ) (cs : List (List String)) :
    ∀ (I : List ℕ) (s : List (List String) × List ℕ) (c : List String),
      c ∈ s.1 → c ∈ (I.foldl (outerStep dist cs) s).1 := by
  intro I
  induction I with
  | nil => intro s c h; exact h
  | cons a I ih =>
    intro s c h
    rw [List.foldl_cons]
    refine ih _ c ?_
    simp only [outerStep]
    split
    · exact h
    · exact List.mem_append_left _ h

/-- Main induction for C2: while iterating the outer pass over a
duplicate-free index list containing `i`, with `i` and `j` not yet
consumed, a cluster containing all members of clusters `i` and `j` is
eventually emitted — provided `i < j` are within the threshold and no
earlier cluster `k` interferes with either. -/
theorem outer_merges (dist : ℕ → ℕ → ℚ) (cs : List (List String)) (i j : ℕ)
    (hij : i < j) (hjn : j < cs.length)
    (hclose : dist i j < SIMILARITY_THRESHOLD)
    (hfar : ∀ k < j, k ≠ i → SIMILARITY_THRESHOLD ≤ dist k i ∧
      SIMILARITY_THRESHOLD ≤ dist k j) :
    ∀ (I : List ℕ), I.Nodup → i ∈ I →
      ∀ (s : List (List String) × List ℕ), i ∉ s.2 → j ∉ s.2 →
      ∃ c ∈ (I.foldl (outerStep dist cs) s).1,
        (∀ x ∈ cs.getD i [], x ∈ c) ∧ ∀ x ∈ cs.getD j [], x ∈ c := by
  intro I
  induction I with
  | nil => intro _ h; exact absurd h (List.not_mem_nil i)
  | cons a I ih =>
    intro hnd hi s hsi hsj
    rw [List.nodup_cons] at hnd
    rw [List.foldl_cons]
    by_cases hai : a = i
    · subst hai
      have ht1 : ∀ x ∈ cs.getD a [], x ∈ ((List.range cs.length).foldl
          (innerStep dist cs a) (cs.getD a [], s.2)).1 := fun x hx =>
        inner_dc_mono dist cs a _ _ x hx
      have ht2 : ∀ x ∈ cs.getD j [], x ∈ ((List.range cs.length).foldl
          (innerStep dist cs a) (cs.getD a [], s.2)).1 :=
        inner_reaches dist cs a j hij hclose (List.range cs.length)
          (List.nodup_range _) (List.mem_range.2 hjn) _ hsj
      have hc : ((List.range cs.length).foldl (innerStep dist cs a)
          (cs.getD a [], s.2)).1.dedup ∈ (outerStep dist cs s a).1 := by
        simp only [outerStep]
        rw [if_neg hsi]
        exact List.mem_append_right _ (by simp)
      refine ⟨_, outer_acc_mono dist cs I _ _ hc, ?_, ?_⟩
      · intro x hx
        exact List.mem_dedup.2 (ht1 x hx)
      · intro x hx
        exact List.mem_dedup.2 (ht2 x hx)
    · have hi' : i ∈ I := by
        rcases List.mem_cons.1 hi with h | h
        · exact absurd h.symm hai
        · exact h
      have hpi : i ∉ (outerStep dist cs s a).2 := by
        intro hcon
        simp only [outerStep] at hcon
        split at hcon
        · exact hsi hcon
        · rcases inner_combined_sub dist cs a _ _ i hcon with h1 | ⟨_, hlt, hd⟩
          · exact hsi h1
          · exact absurd hd (not_lt.2 (hfar a (by omega) hai).1)
      have hpj : j ∉ (outerStep dist cs s a).2 := by
        intro hcon
        simp only [outerStep] at hcon
        split at hcon
        · exact hsj hcon
        · rcases inner_combined_sub dist cs a _ _ j hcon with h1 | ⟨_, hlt, hd⟩
          · exact hsj h1
          · exact absurd hd (not_lt.2 (hfar a hlt hai).2)
      exact ih hnd.2 hi' (outerStep dist cs s a) hpi hpj

/-- C2 (corrected).  If candidate clusters `i < j` have centroid distance
below `SIMILARITY_THRESHOLD` and no earlier cluster `k < j`, `k ≠ i`, is
within the threshold of either centroid (interference consumes `i` or `j`
first — the pass is a single forward sweep without transitive closure),
then the returned list contains a merged cluster including the union of
both clusters' member sets. -/
theorem centroid_merge_union (dist : ℕ → ℕ → ℚ)
    (all_clusters : List (List String)) (i j : ℕ) (hij : i < j)
    (hjn : j < all_clusters.length)
    (hclose : dist i j < SIMILARITY_THRESHOLD)
    (hfar : ∀ k < j, k ≠ i → SIMILARITY_THRESHOLD ≤ dist k i ∧
      SIMILARITY_THRESHOLD ≤ dist k j) :
    ∃ c ∈ combine_clusters_using_centroids dist all_clusters,
      (∀ x ∈ all_clusters.getD i [], x ∈ c) ∧
      ∀ x ∈ all_clusters.getD j [], x ∈ c := by
  rw [combine_clusters_using_centroids]
  exact outer_merges dist all_clusters i j hij hjn hclose hfar
    (List.range all_clusters.length) (List.nodup_range _)
    (List.mem_range.2 (lt_trans hij hjn)) ([], [])
    (List.not_mem_nil i) (List.not_mem_nil j)

/-- The centroid-distance matrix of the C2 counterexample: distances
`d(0,1) = 1/25 = 0.04`, `d(1,2) = 2/65 ≈ 0.031` (both below 0.05) and
`d(0,2) = 9/65 ≈ 0.138` (above it).  These are exactly the pairwise cosine
distances of the centroids `(4,3)`, `(3,4)`, `(5,12)` — see
`exDist_is_cosine_distance` below. -/
def exDist (i j : ℕ) : ℚ :=
  if (i = 0 ∧ j = 1) ∨ (i = 1 ∧ j = 0) then mkRat 1 25
  else if (i = 1 ∧ j = 2) ∨ (i = 2 ∧ j = 1) then mkRat 2 65
  else if (i = 0 ∧ j = 2) ∨ (i = 2 ∧ j = 0) then mkRat 9 65
  else 0

/-- Three disjoint candidate clusters for the C2 counterexample. -/
def exClusters : List (List String) :=
  [["a", "b", "c"], ["d", "e", "f"], ["g", "h", "i"]]

/-- The example matrix is realizable: its entries are the cosine distances
`1 − u·v / (‖u‖ ‖v‖)` of the integer centroids `(4,3)`, `(3,4)`, `(5,12)`,
whose norms are the exact integers 5, 5 and 13. -/
theorem exDist_is_cosine_distance :
    exDist 0 1 = 1 - ((4 * 3 + 3 * 4) : ℚ) / (5 * 5) ∧
      exDist 1 2 = 1 - ((3 * 5 + 4 * 12) : ℚ) / (5 * 13) ∧
      exDist 0 2 = 1 - ((4 * 5 + 3 * 12) : ℚ) / (5 * 13) ∧
      ((4 : ℚ) ^ 2 + 3 ^ 2 = 5 ^ 2 ∧ (3 : ℚ) ^ 2 + 4 ^ 2 = 5 ^ 2 ∧
        (5 : ℚ) ^ 2 + 12 ^ 2 = 13 ^ 2) := by
  refine ⟨?_, ?_, ?_, by norm_num⟩ <;>
    norm_num [exDist, Rat.mkRat_eq_div]

/-- C2 counterexample.  Clusters 1 and 2 have centroid distance
`2/65 < 0.05`, but cluster 1 is consumed first by cluster 0
(`d(0,1) = 1/25 < 0.05`) while `d(0,2) ≥ 0.05`, so the single forward
pass outputs `[cluster0 ∪ cluster1, cluster2]`: no returned cluster
includes the union of clusters 1 and 2 (none holds both `"d"` and `"g"`). -/
theorem centroid_merge_union_cex :
    exDist 1 2 < SIMILARITY_THRESHOLD ∧
      ∀ c ∈ combine_clusters_using_centroids exDist exClusters,
        ¬ ("d" ∈ c ∧ "g" ∈ c) := by decide

/-- Distance matrix for the C2 witness: a single close pair (0, 1). -/
def wDist (i j : ℕ) : ℚ :=
  if (i = 0 ∧ j = 1) ∨ (i = 1 ∧ j = 0) then mkRat 1 25 else 1

/-- Clusters for the C2 witness. -/
def wClusters : List (List String) := [["a"], ["b"]]

/-- Witness for C2's amended theorem: with only two clusters and
`d(0,1) = 1/25 < 0.05`, the interference hypothesis is vacuous and the
output contains their union. -/
theorem centroid_merge_union_witness :
    ∃ c ∈ combine_clusters_using_centroids wDist wClusters,
      (∀ x ∈ wClusters.getD 0 [], x ∈ c) ∧ ∀ x ∈ wClusters.getD 1 [], x ∈ c :=
  centroid_merge_union wDist wClusters 0 1 (by decide) (by decide) (by decide)
    (by decide)
